import Mathlib

set_option maxHeartbeats 1000000

/-!
Verification of the les transaction relay (les/txrelay.go).

The Go file is embedded shallowly: the two maps txSent and txPending become
association lists over Nat keys, the external peerSet collaborator becomes a
structure holding the live peer list and the etherbase lookup, and the request
distributor is observed through the list of scheduling requests a call
produces. The mutex is dropped: every public operation is a pure state
transformer, which matches the source because each operation holds the writer
lock for its whole body.
-/

namespace TxRelay

/-- Transaction hashes (common.Hash in the Go source). -/
abbrev Hash := Nat

/-- Peer handles (the peer pointers of the Go source). -/
abbrev Peer := Nat

/-- Etherbase addresses (common.Address in the Go source). -/
abbrev Address := Nat

/-- Relevant fields of types.Transaction: the content hash and the gas fee
recipient address used for peer selection. Hashing is content addressing, so
the hash is carried as a field and a field-identical copy has the same hash. -/
structure Transaction where
  hash : Hash
  gasFeeRecipient : Address
deriving DecidableEq, Repr

/-- Go struct ltrInfo: one constructed relay copy together with the set of
peers the copy was already delivered to. -/
structure LtrInfo where
  tx : Transaction
  sentTo : List Peer
deriving DecidableEq, Repr

/-- External peer capability registry (the peerSet collaborator): the live
peer list (AllPeers) and the etherbase lookup (getPeerWithEtherbase, which
returns an error in Go when no peer matches, modelled as none). -/
structure PeerSet where
  allPeers : List Peer
  getPeerWithEtherbase : Address → Option Peer

/-- Go struct LesTxRelay: relay table txSent, pending set txPending and the
cached live peer list. The Go maps and the set are modelled as lists. -/
structure LesTxRelay where
  txSent : List (Hash × List LtrInfo)
  txPending : List Hash
  peerList : List Peer
deriving DecidableEq, Repr

/-- Scheduling request handed to the request distributor by send: its canSend
predicate accepts exactly one peer and its delivery action carries one batch
of transaction copies, so a request is observed as that pair. -/
structure DistReq where
  peer : Peer
  txs : List Transaction
deriving DecidableEq, Repr

/-- Fixed fan-out cap, const numRelayPeers = 3 in the Go source. -/
def numRelayPeers : Nat := 3

/-- Read of the relay table (Go map read txSent[hash]). -/
def alookup : List (Hash × List LtrInfo) → Hash → Option (List LtrInfo)
  | [], _ => none
  | (k, v) :: rest, h => if k = h then some v else alookup rest h

/-- Deletion from the relay table (Go delete(txSent, hash)). -/
def aerase : List (Hash × List LtrInfo) → Hash → List (Hash × List LtrInfo)
  | [], _ => []
  | (k, v) :: rest, h => if k = h then aerase rest h else (k, v) :: aerase rest h

/-- Pending set insertion (Go assignment txPending[hash] = struct{}{}). -/
def pinsert (l : List Hash) (h : Hash) : List Hash :=
  if h ∈ l then l else l ++ [h]

/-- Pending set deletion (Go delete(txPending, hash)). -/
def perase : List Hash → Hash → List Hash
  | [], _ => []
  | x :: rest, h => if x = h then perase rest h else x :: perase rest h

/-- Append one copy to the batch of a peer (Go sendTo[p] = append(sendTo[p], ...)). -/
def addSendTo : List (Peer × List Transaction) → Peer → Transaction →
    List (Peer × List Transaction)
  | [], p, tx => [(p, [tx])]
  | (q, l) :: rest, p, tx =>
    if q = p then (q, l ++ [tx]) :: rest else (q, l) :: addSendTo rest p tx

/-- Inner loop of send for one new transaction: w iterations, each copying the
transaction, resolving the peer for the copy via its gas fee recipient, and on
success recording the (peer, copy) pair and a relay record entry with an empty
sentTo set. The Go code copies the transaction without changing any field (the
gas fee recipient rewrite is a TODO in the source and does not happen), so the
copy is modelled as the transaction itself. -/
def relayCopies (ps : PeerSet) (tx : Transaction) :
    Nat → List (Peer × Transaction) × List LtrInfo
  | 0 => ([], [])
  | n + 1 =>
    match ps.getPeerWithEtherbase tx.gasFeeRecipient with
    | none => relayCopies ps tx n
    | some p =>
      ((relayCopies ps tx n).1 ++ [(p, tx)], (relayCopies ps tx n).2 ++ [⟨tx, []⟩])

/-- Accumulator of one send pass: the per-peer batches and the two tables. -/
structure SendAcc where
  sendTo : List (Peer × List Transaction)
  txSent : List (Hash × List LtrInfo)
  txPending : List Hash
deriving DecidableEq, Repr

/-- Branch of the per-transaction loop of send taken for a hash that has no
relay record yet: min(numRelayPeers, len(peerList)) copy slots are attempted,
the relay record is stored and the hash becomes pending. -/
def sendStepNew (ps : PeerSet) (plist : List Peer) (acc : SendAcc)
    (tx : Transaction) : SendAcc :=
  { sendTo := (relayCopies ps tx (min numRelayPeers plist.length)).1.foldl
      (fun m pr => addSendTo m pr.1 pr.2) acc.sendTo
    txSent := acc.txSent ++ [(tx.hash, (relayCopies ps tx (min numRelayPeers plist.length)).2)]
    txPending := pinsert acc.txPending tx.hash }

/-- Body of the per-transaction loop of LesTxRelay.send: a hash already in the
relay table is skipped, a new hash is fanned out. -/
def sendStep (ps : PeerSet) (plist : List Peer) (acc : SendAcc)
    (tx : Transaction) : SendAcc :=
  match alookup acc.txSent tx.hash with
  | some _ => acc
  | none => sendStepNew ps plist acc tx

/-- Go LesTxRelay.send: runs the per-transaction loop over the whole input,
then turns every accumulated per-peer batch into one scheduling request aimed
at exactly that peer. -/
def send (ps : PeerSet) (s : LesTxRelay) (txs : List Transaction) :
    LesTxRelay × List DistReq :=
  let acc := txs.foldl (sendStep ps s.peerList) ⟨[], s.txSent, s.txPending⟩
  (⟨acc.txSent, acc.txPending, s.peerList⟩, acc.sendTo.map fun pr => ⟨pr.1, pr.2⟩)

/-- Go LesTxRelay.Send: public entry point, takes the lock and calls send. -/
def Send (ps : PeerSet) (s : LesTxRelay) (txs : List Transaction) :
    LesTxRelay × List DistReq :=
  send ps s txs

/-- Copies collected by NewHead: for every pending hash, every relay record
entry of that hash contributes its stored copy (a hash without a relay record
contributes nothing, as the Go map read yields nil). -/
def collectPending (s : LesTxRelay) : List Transaction :=
  s.txPending.foldl (fun acc h => acc ++ ((alookup s.txSent h).getD []).map LtrInfo.tx) []

/-- Go LesTxRelay.NewHead: drop every mined hash from the pending set, add
every rolled back hash, and if anything is left pending run send again on all
collected relay copies. -/
def NewHead (ps : PeerSet) (s : LesTxRelay) (head : Hash)
    (mined rollback : List Hash) : LesTxRelay × List DistReq :=
  let pending := rollback.foldl pinsert (mined.foldl perase s.txPending)
  let s1 : LesTxRelay := { s with txPending := pending }
  if 0 < pending.length then send ps s1 (collectPending s1) else (s1, [])

/-- Go LesTxRelay.Discard: delete every given hash from both tables. The Go
loop deletes from both maps per hash; the maps are independent, so folding
over each separately is the same function. -/
def Discard (s : LesTxRelay) (hashes : List Hash) : LesTxRelay :=
  { s with
    txSent := hashes.foldl aerase s.txSent
    txPending := hashes.foldl perase s.txPending }

/-- Go LesTxRelay.registerPeer: refresh the cached live peer list from the
registry; the joining peer itself is not used. -/
def registerPeer (ps : PeerSet) (s : LesTxRelay) (_p : Peer) : LesTxRelay :=
  { s with peerList := ps.allPeers }

/-- Go LesTxRelay.unregisterPeer: refresh the cached live peer list from the
registry; the leaving peer itself is not used. -/
def unregisterPeer (ps : PeerSet) (s : LesTxRelay) (_p : Peer) : LesTxRelay :=
  { s with peerList := ps.allPeers }

/-- Go NewLesTxRelay: empty tables and no cached peers yet. -/
def initRelay : LesTxRelay := ⟨[], [], []⟩

/-- Public operations of the engine. -/
inductive Op where
  | send (txs : List Transaction)
  | newHead (head : Hash) (mined rollback : List Hash)
  | discard (hashes : List Hash)
  | register (p : Peer)
  | unregister (p : Peer)

/-- State transition of one public operation. -/
def applyOp (ps : PeerSet) (s : LesTxRelay) : Op → LesTxRelay
  | .send txs => (Send ps s txs).1
  | .newHead h m r => (NewHead ps s h m r).1
  | .discard hs => Discard s hs
  | .register p => registerPeer ps s p
  | .unregister p => unregisterPeer ps s p

/-- States reachable from a fresh relay by a sequence of public operations. -/
def Reachable (ps : PeerSet) (s : LesTxRelay) : Prop :=
  ∃ ops : List Op, s = ops.foldl (applyOp ps) initRelay

/-- Every relay record entry stores a copy whose hash is its table key. -/
def recordHashOk (m : List (Hash × List LtrInfo)) : Prop :=
  ∀ e ∈ m, ∀ ltr ∈ e.2, ltr.tx.hash = e.1

/-- Every relay record entry has an empty delivered-to set. -/
def allSentToEmpty (m : List (Hash × List LtrInfo)) : Prop :=
  ∀ e ∈ m, ∀ ltr ∈ e.2, ltr.sentTo = []

/-- Both table invariants together. -/
def tablesOk (m : List (Hash × List LtrInfo)) : Prop :=
  recordHashOk m ∧ allSentToEmpty m

/-- No batch of the accumulated sendTo map holds a copy with the given hash. -/
def noHashIn (h : Hash) (m : List (Peer × List Transaction)) : Prop :=
  ∀ pr ∈ m, ∀ t ∈ pr.2, t.hash ≠ h

/-- Concrete transaction used by the executable scenarios. -/
def tx1 : Transaction := ⟨1, 5⟩

/-- Registry with two live peers where every lookup resolves to peer 7. -/
def psA : PeerSet := ⟨[7, 8], fun _ => some 7⟩

/-- Registry with one live peer where every lookup resolves to peer 7. -/
def psB : PeerSet := ⟨[7], fun _ => some 7⟩

/-- Registry with one live peer where every lookup fails. -/
def psC : PeerSet := ⟨[7], fun _ => none⟩

/-- State after a peer joined and tx1 was fanned out once against psB. -/
def sB : LesTxRelay := (Send psB (registerPeer psB initRelay 7) [tx1]).1

/-! Basic lemmas about the table primitives. -/

theorem alookup_append_some {m : List (Hash × List LtrInfo)} {h : Hash}
    {r : List LtrInfo} (hm : alookup m h = some r) (l : List (Hash × List LtrInfo)) :
    alookup (m ++ l) h = some r := by
  induction m with
  | nil => simp [alookup] at hm
  | cons e rest ih =>
    obtain ⟨k, v⟩ := e
    by_cases hk : k = h
    · simp only [alookup, if_pos hk] at hm
      simp only [List.cons_append, alookup, if_pos hk]
      exact hm
    · simp only [alookup, if_neg hk] at hm
      simp only [List.cons_append, alookup, if_neg hk]
      exact ih hm

theorem alookup_append_none {m : List (Hash × List LtrInfo)} {h : Hash}
    (hm : alookup m h = none) (l : List (Hash × List LtrInfo)) :
    alookup (m ++ l) h = alookup l h := by
  induction m with
  | nil => simp
  | cons e rest ih =>
    obtain ⟨k, v⟩ := e
    by_cases hk : k = h
    · simp only [alookup, if_pos hk] at hm
      exact absurd hm (by simp)
    · simp only [alookup, if_neg hk] at hm
      simp only [List.cons_append, alookup, if_neg hk]
      exact ih hm

theorem alookup_mem {m : List (Hash × List LtrInfo)} {h : Hash} {r : List LtrInfo}
    (hm : alookup m h = some r) : (h, r) ∈ m := by
  induction m with
  | nil => simp [alookup] at hm
  | cons e rest ih =>
    obtain ⟨k, v⟩ := e
    by_cases hk : k = h
    · simp only [alookup, if_pos hk] at hm
      injection hm with hv
      subst hk; subst hv
      exact List.mem_cons_self _ _
    · simp only [alookup, if_neg hk] at hm
      exact List.mem_cons_of_mem _ (ih hm)

theorem alookup_aerase (m : List (Hash × List LtrInfo)) (k h : Hash) :
    alookup (aerase m k) h = if h = k then none else alookup m h := by
  induction m with
  | nil =>
    simp only [aerase, alookup]
    split <;> rfl
  | cons e rest ih =>
    obtain ⟨k', v⟩ := e
    simp only [aerase]
    by_cases hk' : k' = k
    · rw [if_pos hk', ih]
      by_cases hk : h = k
      · simp [hk]
      · have hne : ¬ k' = h := fun he => hk (he ▸ hk')
        simp [hk, alookup, hne]
    · rw [if_neg hk']
      by_cases hv : k' = h
      · have hne : ¬ h = k := fun he => hk' (hv.trans he)
        simp [alookup, hv, hne]
      · simp only [alookup, if_neg hv]
        exact ih

theorem aerase_subset {m : List (Hash × List LtrInfo)} {h : Hash}
    {e : Hash × List LtrInfo} (he : e ∈ aerase m h) : e ∈ m := by
  induction m with
  | nil => simp [aerase] at he
  | cons f rest ih =>
    obtain ⟨k, v⟩ := f
    simp only [aerase] at he
    by_cases hk : k = h
    · rw [if_pos hk] at he
      exact List.mem_cons_of_mem _ (ih he)
    · rw [if_neg hk] at he
      rcases List.mem_cons.mp he with he | he
      · exact he ▸ List.mem_cons_self _ _
      · exact List.mem_cons_of_mem _ (ih he)

theorem aerase_of_none {m : List (Hash × List LtrInfo)} {h : Hash}
    (hm : alookup m h = none) : aerase m h = m := by
  induction m with
  | nil => rfl
  | cons e rest ih =>
    obtain ⟨k, v⟩ := e
    by_cases hk : k = h
    · simp only [alookup, if_pos hk] at hm
      exact absurd hm (by simp)
    · simp only [alookup, if_neg hk] at hm
      simp only [aerase, if_neg hk]
      rw [ih hm]

theorem alookup_foldl_aerase :
    ∀ (hashes : List Hash) (m : List (Hash × List LtrInfo)) (h : Hash),
      alookup (hashes.foldl aerase m) h = if h ∈ hashes then none else alookup m h := by
  intro hashes
  induction hashes with
  | nil => intro m h; simp
  | cons k rest ih =>
    intro m h
    simp only [List.foldl_cons]
    rw [ih, alookup_aerase]
    simp only [List.mem_cons]
    by_cases hrest : h ∈ rest
    · simp [hrest]
    · by_cases hk : h = k <;> simp [hrest, hk]

theorem mem_pinsert {l : List Hash} {h x : Hash} :
    x ∈ pinsert l h ↔ x ∈ l ∨ x = h := by
  unfold pinsert
  by_cases hm : h ∈ l
  · rw [if_pos hm]
    constructor
    · exact Or.inl
    · rintro (hx | rfl)
      · exact hx
      · exact hm
  · rw [if_neg hm]
    simp [List.mem_append]

theorem mem_perase {x : Hash} : ∀ {l : List Hash} {h : Hash},
    x ∈ perase l h ↔ x ∈ l ∧ x ≠ h := by
  intro l h
  induction l with
  | nil => simp [perase]
  | cons y rest ih =>
    simp only [perase]
    by_cases hy : y = h
    · rw [if_pos hy, ih]
      subst hy
      simp only [List.mem_cons]
      constructor
      · rintro ⟨h1, h2⟩
        exact ⟨Or.inr h1, h2⟩
      · rintro ⟨h1 | h1, h2⟩
        · exact absurd h1 h2
        · exact ⟨h1, h2⟩
    · rw [if_neg hy]
      simp only [List.mem_cons, ih]
      constructor
      · rintro (rfl | ⟨h1, h2⟩)
        · exact ⟨Or.inl rfl, hy⟩
        · exact ⟨Or.inr h1, h2⟩
      · rintro ⟨rfl | h1, h2⟩
        · exact Or.inl rfl
        · exact Or.inr ⟨h1, h2⟩

theorem perase_of_not_mem {l : List Hash} {h : Hash} (hm : h ∉ l) :
    perase l h = l := by
  induction l with
  | nil => rfl
  | cons y rest ih =>
    have hy : ¬ y = h := fun he => hm (he ▸ List.mem_cons_self _ _)
    have hr : h ∉ rest := fun he => hm (List.mem_cons_of_mem _ he)
    simp only [perase, if_neg hy]
    rw [ih hr]

theorem mem_foldl_perase {x : Hash} :
    ∀ (mined : List Hash) (l : List Hash),
      x ∈ mined.foldl perase l ↔ x ∈ l ∧ x ∉ mined := by
  intro mined
  induction mined with
  | nil => intro l; simp
  | cons k rest ih =>
    intro l
    simp only [List.foldl_cons]
    rw [ih, mem_perase]
    simp only [List.mem_cons]
    tauto

theorem mem_foldl_pinsert {x : Hash} :
    ∀ (rb : List Hash) (l : List Hash),
      x ∈ rb.foldl pinsert l ↔ x ∈ l ∨ x ∈ rb := by
  intro rb
  induction rb with
  | nil => intro l; simp
  | cons k rest ih =>
    intro l
    simp only [List.foldl_cons]
    rw [ih, mem_pinsert]
    simp only [List.mem_cons]
    tauto

/-! Lemmas about the fan-out helpers. -/

theorem relayCopies_fst_mem {ps : PeerSet} {tx : Transaction} :
    ∀ {n : Nat} {pr : Peer × Transaction}, pr ∈ (relayCopies ps tx n).1 → pr.2 = tx := by
  intro n
  induction n with
  | zero => intro pr hpr; simp [relayCopies] at hpr
  | succ n ih =>
    intro pr hpr
    cases hg : ps.getPeerWithEtherbase tx.gasFeeRecipient with
    | none =>
      simp only [relayCopies, hg] at hpr
      exact ih hpr
    | some p =>
      simp only [relayCopies, hg, List.mem_append, List.mem_singleton] at hpr
      rcases hpr with hpr | rfl
      · exact ih hpr
      · rfl

theorem relayCopies_snd_mem {ps : PeerSet} {tx : Transaction} :
    ∀ {n : Nat} {ltr : LtrInfo}, ltr ∈ (relayCopies ps tx n).2 → ltr = ⟨tx, []⟩ := by
  intro n
  induction n with
  | zero => intro ltr hltr; simp [relayCopies] at hltr
  | succ n ih =>
    intro ltr hltr
    cases hg : ps.getPeerWithEtherbase tx.gasFeeRecipient with
    | none =>
      simp only [relayCopies, hg] at hltr
      exact ih hltr
    | some p =>
      simp only [relayCopies, hg, List.mem_append, List.mem_singleton] at hltr
      rcases hltr with hltr | rfl
      · exact ih hltr
      · rfl

theorem relayCopies_none {ps : PeerSet} {tx : Transaction}
    (hg : ps.getPeerWithEtherbase tx.gasFeeRecipient = none) :
    ∀ n, relayCopies ps tx n = ([], []) := by
  intro n
  induction n with
  | zero => rfl
  | succ n ih => simp [relayCopies, hg, ih]

theorem mem_addSendTo {p : Peer} {tx t : Transaction} :
    ∀ (m : List (Peer × List Transaction)) (pr : Peer × List Transaction),
      pr ∈ addSendTo m p tx → t ∈ pr.2 → (∃ pr1 ∈ m, t ∈ pr1.2) ∨ t = tx := by
  intro m
  induction m with
  | nil =>
    intro pr hpr ht
    simp only [addSendTo, List.mem_singleton] at hpr
    subst hpr
    simp only [List.mem_singleton] at ht
    exact Or.inr ht
  | cons e rest ih =>
    obtain ⟨q, l⟩ := e
    intro pr hpr ht
    simp only [addSendTo] at hpr
    by_cases hq : q = p
    · rw [if_pos hq] at hpr
      rcases List.mem_cons.mp hpr with rfl | hpr
      · rcases List.mem_append.mp ht with h1 | h1
        · exact Or.inl ⟨(q, l), List.mem_cons_self _ _, h1⟩
        · exact Or.inr (List.mem_singleton.mp h1)
      · exact Or.inl ⟨pr, List.mem_cons_of_mem _ hpr, ht⟩
    · rw [if_neg hq] at hpr
      rcases List.mem_cons.mp hpr with rfl | hpr
      · exact Or.inl ⟨(q, l), List.mem_cons_self _ _, ht⟩
      · rcases ih pr hpr ht with ⟨pr1, hpr1, ht1⟩ | h
        · exact Or.inl ⟨pr1, List.mem_cons_of_mem _ hpr1, ht1⟩
        · exact Or.inr h

theorem noHashIn_addSendTo {h : Hash} {m : List (Peer × List Transaction)}
    {p : Peer} {tx : Transaction} (hm : noHashIn h m) (htx : tx.hash ≠ h) :
    noHashIn h (addSendTo m p tx) := by
  intro pr hpr t ht
  rcases mem_addSendTo m pr hpr ht with ⟨pr1, hpr1, ht1⟩ | rfl
  · exact hm pr1 hpr1 t ht1
  · exact htx

theorem noHashIn_foldl {h : Hash} :
    ∀ (pairs : List (Peer × Transaction)) (m : List (Peer × List Transaction)),
      (∀ pr ∈ pairs, (pr.2).hash ≠ h) → noHashIn h m →
      noHashIn h (pairs.foldl (fun m0 pr => addSendTo m0 pr.1 pr.2) m) := by
  intro pairs
  induction pairs with
  | nil => intro m _ hm; exact hm
  | cons pr rest ih =>
    intro m hall hm
    simp only [List.foldl_cons]
    apply ih
    · intro pr1 hpr1
      exact hall pr1 (List.mem_cons_of_mem _ hpr1)
    · exact noHashIn_addSendTo hm (hall pr (List.mem_cons_self _ _))

theorem sendStep_of_some {ps : PeerSet} {plist : List Peer} {acc : SendAcc}
    {tx : Transaction} {v : List LtrInfo}
    (h : alookup acc.txSent tx.hash = some v) :
    sendStep ps plist acc tx = acc := by
  simp [sendStep, h]

theorem sendStep_of_none {ps : PeerSet} {plist : List Peer} {acc : SendAcc}
    {tx : Transaction} (h : alookup acc.txSent tx.hash = none) :
    sendStep ps plist acc tx = sendStepNew ps plist acc tx := by
  simp [sendStep, h]

/-! Invariants of one full send pass. -/

theorem sendFold_inv (ps : PeerSet) (plist : List Peer) (h : Hash) (r : List LtrInfo) :
    ∀ (txs : List Transaction) (acc : SendAcc),
      alookup acc.txSent h = some r → noHashIn h acc.sendTo →
      alookup (txs.foldl (sendStep ps plist) acc).txSent h = some r ∧
      (h ∈ (txs.foldl (sendStep ps plist) acc).txPending ↔ h ∈ acc.txPending) ∧
      noHashIn h (txs.foldl (sendStep ps plist) acc).sendTo := by
  intro txs
  induction txs with
  | nil =>
    intro acc h1 h2
    exact ⟨h1, Iff.rfl, h2⟩
  | cons tx rest ih =>
    intro acc h1 h2
    simp only [List.foldl_cons]
    cases halo : alookup acc.txSent tx.hash with
    | some v =>
      rw [sendStep_of_some halo]
      exact ih acc h1 h2
    | none =>
      have hne : tx.hash ≠ h := by
        intro he
        rw [he, h1] at halo
        exact Option.noConfusion halo
      rw [sendStep_of_none halo]
      have hA : alookup (sendStepNew ps plist acc tx).txSent h = some r := by
        simp only [sendStepNew]
        exact alookup_append_some h1 _
      have hB : noHashIn h (sendStepNew ps plist acc tx).sendTo := by
        simp only [sendStepNew]
        exact noHashIn_foldl _ _
          (fun pr hpr => by rw [relayCopies_fst_mem hpr]; exact hne) h2
      obtain ⟨a1, a2, a3⟩ := ih _ hA hB
      have hC : h ∈ (sendStepNew ps plist acc tx).txPending ↔ h ∈ acc.txPending := by
        simp only [sendStepNew]
        rw [mem_pinsert]
        constructor
        · rintro (hx | hx)
          · exact hx
          · exact absurd hx.symm hne
        · exact Or.inl
      exact ⟨a1, a2.trans hC, a3⟩

theorem sendFold_pending_mono (ps : PeerSet) (plist : List Peer) :
    ∀ (txs : List Transaction) (acc : SendAcc) (h : Hash),
      h ∈ acc.txPending → h ∈ (txs.foldl (sendStep ps plist) acc).txPending := by
  intro txs
  induction txs with
  | nil => intro acc h hm; exact hm
  | cons tx rest ih =>
    intro acc h hm
    simp only [List.foldl_cons]
    apply ih
    cases halo : alookup acc.txSent tx.hash with
    | some v => rw [sendStep_of_some halo]; exact hm
    | none =>
      rw [sendStep_of_none halo]
      simp only [sendStepNew]
      exact mem_pinsert.mpr (Or.inl hm)

theorem sendFold_pending_origin (ps : PeerSet) (plist : List Peer) :
    ∀ (txs : List Transaction) (acc : SendAcc) (h : Hash),
      h ∈ (txs.foldl (sendStep ps plist) acc).txPending →
      h ∈ acc.txPending ∨ ∃ tx ∈ txs, tx.hash = h := by
  intro txs
  induction txs with
  | nil => intro acc h hm; exact Or.inl hm
  | cons tx rest ih =>
    intro acc h hm
    simp only [List.foldl_cons] at hm
    rcases ih _ h hm with hm1 | ⟨tx1, htx1, hh1⟩
    · cases halo : alookup acc.txSent tx.hash with
      | some v =>
        rw [sendStep_of_some halo] at hm1
        exact Or.inl hm1
      | none =>
        rw [sendStep_of_none halo] at hm1
        simp only [sendStepNew] at hm1
        rcases mem_pinsert.mp hm1 with hm2 | hm2
        · exact Or.inl hm2
        · exact Or.inr ⟨tx, List.mem_cons_self _ _, hm2.symm⟩
    · exact Or.inr ⟨tx1, List.mem_cons_of_mem _ htx1, hh1⟩

theorem mem_foldl_append {α β : Type} (f : β → List α) :
    ∀ (l : List β) (acc : List α) (x : α),
      x ∈ l.foldl (fun a b => a ++ f b) acc → x ∈ acc ∨ ∃ b ∈ l, x ∈ f b := by
  intro l
  induction l with
  | nil => intro acc x hx; exact Or.inl hx
  | cons b rest ih =>
    intro acc x hx
    simp only [List.foldl_cons] at hx
    rcases ih _ x hx with hx | ⟨b1, hb1, hx⟩
    · rcases List.mem_append.mp hx with hx | hx
      · exact Or.inl hx
      · exact Or.inr ⟨b, List.mem_cons_self _ _, hx⟩
    · exact Or.inr ⟨b1, List.mem_cons_of_mem _ hb1, hx⟩

theorem collectPending_hash (s : LesTxRelay) (hrec : recordHashOk s.txSent) :
    ∀ t ∈ collectPending s, t.hash ∈ s.txPending := by
  intro t ht
  unfold collectPending at ht
  rcases mem_foldl_append _ _ _ _ ht with hx | ⟨hh, hhmem, hx⟩
  · simp at hx
  · rcases List.mem_map.mp hx with ⟨ltr, hltr, rfl⟩
    cases halo : alookup s.txSent hh with
    | none =>
      rw [halo] at hltr
      simp at hltr
    | some r =>
      rw [halo] at hltr
      simp only [Option.getD_some] at hltr
      have hkey := hrec (hh, r) (alookup_mem halo) ltr hltr
      rw [hkey]
      exact hhmem

/-! Preservation of the table invariants along every operation. -/

theorem tablesOk_append {m : List (Hash × List LtrInfo)} {h : Hash}
    {ltrs : List LtrInfo} (hm : tablesOk m)
    (hl : ∀ ltr ∈ ltrs, ltr.tx.hash = h ∧ ltr.sentTo = []) :
    tablesOk (m ++ [(h, ltrs)]) := by
  constructor
  · intro e he ltr hltr
    rcases List.mem_append.mp he with he | he
    · exact hm.1 e he ltr hltr
    · have heq : e = (h, ltrs) := List.mem_singleton.mp he
      subst heq
      exact (hl ltr hltr).1
  · intro e he ltr hltr
    rcases List.mem_append.mp he with he | he
    · exact hm.2 e he ltr hltr
    · have heq : e = (h, ltrs) := List.mem_singleton.mp he
      subst heq
      exact (hl ltr hltr).2

theorem sendFold_tablesOk (ps : PeerSet) (plist : List Peer) :
    ∀ (txs : List Transaction) (acc : SendAcc),
      tablesOk acc.txSent → tablesOk ((txs.foldl (sendStep ps plist) acc).txSent) := by
  intro txs
  induction txs with
  | nil => intro acc h; exact h
  | cons tx rest ih =>
    intro acc hacc
    simp only [List.foldl_cons]
    apply ih
    cases halo : alookup acc.txSent tx.hash with
    | some v =>
      rw [sendStep_of_some halo]
      exact hacc
    | none =>
      rw [sendStep_of_none halo]
      simp only [sendStepNew]
      refine tablesOk_append hacc ?_
      intro ltr hltr
      rw [relayCopies_snd_mem hltr]
      exact ⟨rfl, rfl⟩

theorem tablesOk_aerase {m : List (Hash × List LtrInfo)} (hm : tablesOk m)
    (h : Hash) : tablesOk (aerase m h) :=
  ⟨fun e he => hm.1 e (aerase_subset he), fun e he => hm.2 e (aerase_subset he)⟩

theorem tablesOk_foldl_aerase :
    ∀ (hashes : List Hash) (m : List (Hash × List LtrInfo)),
      tablesOk m → tablesOk (hashes.foldl aerase m) := by
  intro hashes
  induction hashes with
  | nil => intro m hm; exact hm
  | cons k rest ih =>
    intro m hm
    exact ih _ (tablesOk_aerase hm k)

theorem applyOp_tablesOk (ps : PeerSet) (s : LesTxRelay) (op : Op)
    (hs : tablesOk s.txSent) : tablesOk (applyOp ps s op).txSent := by
  cases op with
  | send txs =>
    exact sendFold_tablesOk ps s.peerList txs ⟨[], s.txSent, s.txPending⟩ hs
  | newHead head mined rollback =>
    simp only [applyOp, NewHead]
    split
    · exact sendFold_tablesOk ps _ _ ⟨[], _, _⟩ hs
    · exact hs
  | discard hashes => exact tablesOk_foldl_aerase hashes s.txSent hs
  | register p => exact hs
  | unregister p => exact hs

theorem foldl_applyOp_tablesOk (ps : PeerSet) :
    ∀ (ops : List Op) (s0 : LesTxRelay),
      tablesOk s0.txSent → tablesOk ((ops.foldl (applyOp ps) s0).txSent) := by
  intro ops
  induction ops with
  | nil => intro s0 h; exact h
  | cons op rest ih =>
    intro s0 h
    exact ih _ (applyOp_tablesOk ps s0 op h)

theorem reachable_tablesOk {ps : PeerSet} {s : LesTxRelay}
    (hr : Reachable ps s) : tablesOk s.txSent := by
  obtain ⟨ops, rfl⟩ := hr
  refine foldl_applyOp_tablesOk ps ops initRelay ?_
  exact ⟨fun e he => absurd he (List.not_mem_nil e),
    fun e he => absurd he (List.not_mem_nil e)⟩

/-- Characterization of the pending set after NewHead under the key invariant
of the relay table: the trailing send pass never changes pending membership,
because every collected copy has a hash that is already pending. -/
theorem newHead_pending_mem (ps : PeerSet) (s : LesTxRelay) (head : Hash)
    (mined rollback : List Hash) (hrec : recordHashOk s.txSent) (x : Hash) :
    x ∈ (NewHead ps s head mined rollback).1.txPending ↔
      (x ∈ s.txPending ∧ x ∉ mined) ∨ x ∈ rollback := by
  have hp2 : x ∈ rollback.foldl pinsert (mined.foldl perase s.txPending) ↔
      (x ∈ s.txPending ∧ x ∉ mined) ∨ x ∈ rollback := by
    rw [mem_foldl_pinsert, mem_foldl_perase]
  simp only [NewHead]
  split
  · constructor
    · intro hx
      rcases sendFold_pending_origin ps _ _ _ x hx with hx1 | ⟨t, ht, hth⟩
      · exact hp2.mp hx1
      · have hmem := collectPending_hash
          { s with txPending := rollback.foldl pinsert (mined.foldl perase s.txPending) }
          hrec t ht
        rw [hth] at hmem
        exact hp2.mp hmem
    · intro hx
      exact sendFold_pending_mono ps _ _ _ x (hp2.mpr hx)
  · exact hp2

/-! Claim theorems. -/

/-- C1: the claim states that after NewHead leaves the pending set non-empty,
every still-pending hash with a relay record is resubmitted to the scheduler
for every recorded peer. The code contradicts this: the replay path collects
the stored copies and calls send again, but send skips every hash that is
already in the relay table, so it accumulates no batch and submits zero
scheduling requests. Exhibit: one peer, one fanned-out transaction; the first
Send submits one request for peer 7, the rollback NewHead leaves hash 1
pending with its relay record intact, yet submits no request at all. -/
theorem C1_reorg_replay_submits_nothing :
    (Send psB (registerPeer psB initRelay 7) [tx1]).2 = [⟨7, [tx1]⟩] ∧
    alookup (Send psB (registerPeer psB initRelay 7) [tx1]).1.txSent 1 =
      some [⟨tx1, []⟩] ∧
    1 ∈ (NewHead psB (Send psB (registerPeer psB initRelay 7) [tx1]).1
      0 [] [1]).1.txPending ∧
    (NewHead psB (Send psB (registerPeer psB initRelay 7) [tx1]).1 0 [] [1]).2 = [] := by
  decide

/-- C2 counterexample: the claim states that a transaction for which every
candidate peer lookup fails stays absent from the relay table. In the code the
assignment txSent[hash] = ltrs runs even when ltrs stayed empty, so after a
Send against a registry whose lookup always fails the hash is present, mapped
to an empty record. -/
theorem C2_counterexample :
    alookup (Send psC (registerPeer psC initRelay 7) [tx1]).1.txSent tx1.hash =
      some [] ∧
    (Send psC (Send psC (registerPeer psC initRelay 7) [tx1]).1 [tx1]).2 = [] := by
  decide

/-- C2 amended: when every candidate peer lookup for a new transaction fails,
no scheduling request is submitted, but the hash is inserted into the relay
table bound to an empty record and into the pending set; a later Send of the
same transaction is deduplicated by that empty record and performs no fresh
fan-out. -/
theorem C2_no_peer_empty_record (ps : PeerSet) (s : LesTxRelay) (tx : Transaction)
    (hnew : alookup s.txSent tx.hash = none)
    (hmiss : ps.getPeerWithEtherbase tx.gasFeeRecipient = none) :
    alookup (Send ps s [tx]).1.txSent tx.hash = some [] ∧
    tx.hash ∈ (Send ps s [tx]).1.txPending ∧
    (Send ps s [tx]).2 = [] ∧
    (Send ps (Send ps s [tx]).1 [tx]).1 = (Send ps s [tx]).1 ∧
    (Send ps (Send ps s [tx]).1 [tx]).2 = [] := by
  have hrc := relayCopies_none hmiss (min numRelayPeers s.peerList.length)
  have hstep : sendStep ps s.peerList ⟨[], s.txSent, s.txPending⟩ tx =
      ⟨[], s.txSent ++ [(tx.hash, [])], pinsert s.txPending tx.hash⟩ := by
    rw [sendStep_of_none hnew]
    simp only [sendStepNew, hrc]
    rfl
  have hfold : [tx].foldl (sendStep ps s.peerList) ⟨[], s.txSent, s.txPending⟩ =
      ⟨[], s.txSent ++ [(tx.hash, [])], pinsert s.txPending tx.hash⟩ := by
    simp only [List.foldl_cons, List.foldl_nil, hstep]
  have h1 : (Send ps s [tx]).1 =
      ⟨s.txSent ++ [(tx.hash, [])], pinsert s.txPending tx.hash, s.peerList⟩ := by
    simp only [Send, send, hfold]
  have h2 : (Send ps s [tx]).2 = [] := by
    simp only [Send, send, hfold]
    rfl
  have hlook : alookup (s.txSent ++ [(tx.hash, [])]) tx.hash = some [] := by
    rw [alookup_append_none hnew]
    simp [alookup]
  refine ⟨by rw [h1]; exact hlook, ?_, h2, ?_, ?_⟩
  · rw [h1]
    exact mem_pinsert.mpr (Or.inr rfl)
  · have hstep2 : sendStep ps (Send ps s [tx]).1.peerList
        ⟨[], (Send ps s [tx]).1.txSent, (Send ps s [tx]).1.txPending⟩ tx =
        ⟨[], (Send ps s [tx]).1.txSent, (Send ps s [tx]).1.txPending⟩ :=
      sendStep_of_some (v := []) (by rw [h1]; exact hlook)
    show (send ps (Send ps s [tx]).1 [tx]).1 = (Send ps s [tx]).1
    simp only [send, List.foldl_cons, List.foldl_nil, hstep2]
  · have hstep2 : sendStep ps (Send ps s [tx]).1.peerList
        ⟨[], (Send ps s [tx]).1.txSent, (Send ps s [tx]).1.txPending⟩ tx =
        ⟨[], (Send ps s [tx]).1.txSent, (Send ps s [tx]).1.txPending⟩ :=
      sendStep_of_some (v := []) (by rw [h1]; exact hlook)
    show (send ps (Send ps s [tx]).1 [tx]).2 = []
    simp only [send, List.foldl_cons, List.foldl_nil, hstep2]
    rfl

/-- C2 witness: the amended statement evaluated on the failing registry. -/
theorem C2_witness :
    alookup (registerPeer psC initRelay 7).txSent tx1.hash = none ∧
    psC.getPeerWithEtherbase tx1.gasFeeRecipient = none ∧
    (alookup (Send psC (registerPeer psC initRelay 7) [tx1]).1.txSent tx1.hash =
        some [] ∧
      tx1.hash ∈ (Send psC (registerPeer psC initRelay 7) [tx1]).1.txPending ∧
      (Send psC (registerPeer psC initRelay 7) [tx1]).2 = [] ∧
      (Send psC (Send psC (registerPeer psC initRelay 7) [tx1]).1 [tx1]).1 =
        (Send psC (registerPeer psC initRelay 7) [tx1]).1 ∧
      (Send psC (Send psC (registerPeer psC initRelay 7) [tx1]).1 [tx1]).2 = []) :=
  ⟨rfl, rfl, C2_no_peer_empty_record psC (registerPeer psC initRelay 7) tx1 rfl rfl⟩

/-- C3: the claim states that a single new transaction is targeted at exactly
min(3, P) distinct peers when P peers are live. The code contradicts this:
every one of the min(3, P) copies resolves the same unchanged gas fee
recipient through the registry, so all copies land on one peer (the recipient
rewrite is a TODO in the source). Exhibit: two live peers, the lookup resolves
to peer 7; min(3, 2) = 2, yet the single submitted request targets one
distinct peer carrying both copies. -/
theorem C3_fanout_single_peer :
    (registerPeer psA initRelay 7).peerList.length = 2 ∧
    min numRelayPeers (registerPeer psA initRelay 7).peerList.length = 2 ∧
    (Send psA (registerPeer psA initRelay 7) [tx1]).2 = [⟨7, [tx1, tx1]⟩] ∧
    ((Send psA (registerPeer psA initRelay 7) [tx1]).2.map DistReq.peer).dedup.length
      = 1 := by
  decide

/-- C4: a Send whose input contains a transaction whose hash already has a
relay record performs no new fan-out for it: the record is unchanged, the
pending membership of the hash is unchanged, and no submitted scheduling
request carries a copy with that hash. -/
theorem C4_send_dedup (ps : PeerSet) (s : LesTxRelay) (txs : List Transaction)
    (tx : Transaction) (r : List LtrInfo) (hmem : tx ∈ txs)
    (hrec : alookup s.txSent tx.hash = some r) :
    alookup (Send ps s txs).1.txSent tx.hash = some r ∧
    (tx.hash ∈ (Send ps s txs).1.txPending ↔ tx.hash ∈ s.txPending) ∧
    ∀ req ∈ (Send ps s txs).2, ∀ t ∈ req.txs, t.hash ≠ tx.hash := by
  obtain ⟨a1, a2, a3⟩ := sendFold_inv ps s.peerList tx.hash r txs
    ⟨[], s.txSent, s.txPending⟩ hrec (fun pr hpr => absurd hpr (List.not_mem_nil pr))
  refine ⟨a1, a2, ?_⟩
  intro req hreq t ht
  simp only [Send, send] at hreq
  rcases List.mem_map.mp hreq with ⟨pr, hpr, rfl⟩
  exact a3 pr hpr t ht

/-- C4 witness: the dedup statement evaluated on a state holding hash 1. -/
theorem C4_witness :
    tx1 ∈ [tx1] ∧ alookup sB.txSent tx1.hash = some [⟨tx1, []⟩] ∧
    (alookup (Send psB sB [tx1]).1.txSent tx1.hash = some [⟨tx1, []⟩] ∧
      (tx1.hash ∈ (Send psB sB [tx1]).1.txPending ↔ tx1.hash ∈ sB.txPending) ∧
      ∀ req ∈ (Send psB sB [tx1]).2, ∀ t ∈ req.txs, t.hash ≠ tx1.hash) :=
  ⟨by decide, by decide,
    C4_send_dedup psB sB [tx1] tx1 [⟨tx1, []⟩] (by decide) (by decide)⟩

/-- Evaluation of a one-element Send on a hash without a relay record: the
fan-out branch runs, stores the constructed relay record, marks the hash
pending and submits the requests built from the accumulated batches. -/
theorem send_single_new (ps : PeerSet) (s : LesTxRelay) (tx : Transaction)
    (hnew : alookup s.txSent tx.hash = none) :
    (Send ps s [tx]).1.txSent = s.txSent ++
      [(tx.hash, (relayCopies ps tx (min numRelayPeers s.peerList.length)).2)] ∧
    (Send ps s [tx]).1.txPending = pinsert s.txPending tx.hash ∧
    (Send ps s [tx]).1.peerList = s.peerList ∧
    (Send ps s [tx]).2 =
      ((relayCopies ps tx (min numRelayPeers s.peerList.length)).1.foldl
        (fun m pr => addSendTo m pr.1 pr.2) []).map (fun pr => ⟨pr.1, pr.2⟩) := by
  have hstep : sendStep ps s.peerList ⟨[], s.txSent, s.txPending⟩ tx =
      sendStepNew ps s.peerList ⟨[], s.txSent, s.txPending⟩ tx :=
    sendStep_of_none hnew
  refine ⟨?_, ?_, rfl, ?_⟩
  · simp only [Send, send, List.foldl_cons, List.foldl_nil, hstep, sendStepNew]
  · simp only [Send, send, List.foldl_cons, List.foldl_nil, hstep, sendStepNew]
  · simp only [Send, send, List.foldl_cons, List.foldl_nil, hstep, sendStepNew]

/-- Operation sequence that reaches sB from a fresh relay. -/
def opsB : List Op := [Op.register 7, Op.send [tx1]]

/-- C5: after NewHead(head, mined = [a], rolledBack = [b]) with distinct a and
b, the hash a is no longer pending and the hash b is pending, from every state
the engine can reach. -/
theorem C5_pending_consistency (ps : PeerSet) (s : LesTxRelay) (head a b : Hash)
    (hreach : Reachable ps s) (hab : a ≠ b) :
    a ∉ (NewHead ps s head [a] [b]).1.txPending ∧
    b ∈ (NewHead ps s head [a] [b]).1.txPending := by
  have hrec : recordHashOk s.txSent := (reachable_tablesOk hreach).1
  constructor
  · rw [newHead_pending_mem ps s head [a] [b] hrec a]
    rintro (⟨h1, h2⟩ | hb)
    · exact h2 (List.mem_singleton.mpr rfl)
    · exact hab (List.mem_singleton.mp hb)
  · rw [newHead_pending_mem ps s head [a] [b] hrec b]
    exact Or.inr (List.mem_singleton.mpr rfl)

/-- C5 witness: the statement evaluated at the reachable state sB. -/
theorem C5_witness :
    Reachable psB sB ∧ (1 : Hash) ≠ 2 ∧
    (1 ∉ (NewHead psB sB 0 [1] [2]).1.txPending ∧
      2 ∈ (NewHead psB sB 0 [1] [2]).1.txPending) :=
  ⟨⟨opsB, by decide⟩, by decide,
    C5_pending_consistency psB sB 0 1 2 ⟨opsB, by decide⟩ (by decide)⟩

/-- C6: after Discard([h]) the hash h is gone from both tables; a subsequent
Send of a transaction with hash h runs the full fresh fan-out branch exactly
as on a never-seen hash; and Discard of an untracked hash changes nothing. -/
theorem C6_discard_finality (ps : PeerSet) (s s2 : LesTxRelay) (h : Hash)
    (tx : Transaction) (htx : tx.hash = h)
    (hu1 : alookup s2.txSent h = none) (hu2 : h ∉ s2.txPending) :
    (alookup (Discard s [h]).txSent h = none ∧ h ∉ (Discard s [h]).txPending) ∧
    (alookup (Send ps (Discard s [h]) [tx]).1.txSent h =
        some (relayCopies ps tx (min numRelayPeers s.peerList.length)).2 ∧
      h ∈ (Send ps (Discard s [h]) [tx]).1.txPending ∧
      (Send ps (Discard s [h]) [tx]).2 =
        ((relayCopies ps tx (min numRelayPeers s.peerList.length)).1.foldl
          (fun m pr => addSendTo m pr.1 pr.2) []).map (fun pr => ⟨pr.1, pr.2⟩)) ∧
    Discard s2 [h] = s2 := by
  have hdl : alookup (Discard s [h]).txSent h = none := by
    show alookup ([h].foldl aerase s.txSent) h = none
    simp only [List.foldl_cons, List.foldl_nil]
    rw [alookup_aerase]
    simp
  have hdp : h ∉ (Discard s [h]).txPending := by
    show h ∉ [h].foldl perase s.txPending
    simp only [List.foldl_cons, List.foldl_nil]
    intro hmem
    exact (mem_perase.mp hmem).2 rfl
  have hlookd : alookup (Discard s [h]).txSent tx.hash = none := by
    rw [htx]; exact hdl
  obtain ⟨e1, e2, e3, e4⟩ := send_single_new ps (Discard s [h]) tx hlookd
  have hpl : (Discard s [h]).peerList = s.peerList := rfl
  rw [hpl] at e1 e4
  refine ⟨⟨hdl, hdp⟩, ⟨?_, ?_, ?_⟩, ?_⟩
  · rw [e1, alookup_append_none hdl]
    simp [alookup, htx]
  · rw [e2]
    exact mem_pinsert.mpr (Or.inr htx.symm)
  · rw [e4]
  · simp only [Discard, List.foldl_cons, List.foldl_nil]
    rw [aerase_of_none hu1, perase_of_not_mem hu2]

/-- C6 witness: discard and re-send of hash 1 against sB, plus the untracked
no-op against the fresh relay. -/
theorem C6_witness :
    tx1.hash = 1 ∧ alookup initRelay.txSent 1 = none ∧
    (1 : Hash) ∉ initRelay.txPending ∧
    ((alookup (Discard sB [1]).txSent 1 = none ∧ 1 ∉ (Discard sB [1]).txPending) ∧
      (alookup (Send psB (Discard sB [1]) [tx1]).1.txSent 1 =
          some (relayCopies psB tx1 (min numRelayPeers sB.peerList.length)).2 ∧
        1 ∈ (Send psB (Discard sB [1]) [tx1]).1.txPending ∧
        (Send psB (Discard sB [1]) [tx1]).2 =
          ((relayCopies psB tx1 (min numRelayPeers sB.peerList.length)).1.foldl
            (fun m pr => addSendTo m pr.1 pr.2) []).map (fun pr => ⟨pr.1, pr.2⟩)) ∧
      Discard initRelay [1] = initRelay) :=
  ⟨rfl, rfl, by decide,
    C6_discard_finality psB sB initRelay 1 tx1 rfl rfl (by decide)⟩

/-- C7: the peer membership notifications leave the relay table and the
pending set untouched and only refresh the cached live peer list. -/
theorem C7_peer_notify_frame (ps : PeerSet) (s : LesTxRelay) (p q : Peer) :
    (registerPeer ps s p).txSent = s.txSent ∧
    (registerPeer ps s p).txPending = s.txPending ∧
    (registerPeer ps s p).peerList = ps.allPeers ∧
    (unregisterPeer ps s q).txSent = s.txSent ∧
    (unregisterPeer ps s q).txPending = s.txPending ∧
    (unregisterPeer ps s q).peerList = ps.allPeers :=
  ⟨rfl, rfl, rfl, rfl, rfl, rfl⟩

/-- C8: a relay record survives Send, NewHead and the peer notifications
unchanged, and is removed, together with the pending membership, exactly by a
Discard naming its hash. -/
theorem C8_record_lifecycle (ps : PeerSet) (s : LesTxRelay) (h : Hash)
    (r : List LtrInfo) (hrec : alookup s.txSent h = some r) :
    (∀ txs, alookup (Send ps s txs).1.txSent h = some r) ∧
    (∀ head mined rollback,
      alookup (NewHead ps s head mined rollback).1.txSent h = some r) ∧
    (∀ p, (registerPeer ps s p).txSent = s.txSent ∧
      (unregisterPeer ps s p).txSent = s.txSent) ∧
    (∀ hashes, h ∈ hashes →
      alookup (Discard s hashes).txSent h = none ∧
        h ∉ (Discard s hashes).txPending) ∧
    (∀ hashes, h ∉ hashes → alookup (Discard s hashes).txSent h = some r) := by
  refine ⟨?_, ?_, fun p => ⟨rfl, rfl⟩, ?_, ?_⟩
  · intro txs
    exact (sendFold_inv ps s.peerList h r txs ⟨[], s.txSent, s.txPending⟩ hrec
      (fun pr hpr => absurd hpr (List.not_mem_nil pr))).1
  · intro head mined rollback
    simp only [NewHead]
    split
    · exact (sendFold_inv ps _ h r _ ⟨[], _, _⟩ hrec
        (fun pr hpr => absurd hpr (List.not_mem_nil pr))).1
    · exact hrec
  · intro hashes hh
    constructor
    · show alookup (hashes.foldl aerase s.txSent) h = none
      rw [alookup_foldl_aerase]
      simp [hh]
    · show h ∉ hashes.foldl perase s.txPending
      rw [mem_foldl_perase]
      rintro ⟨h1, h2⟩
      exact h2 hh
  · intro hashes hh
    show alookup (hashes.foldl aerase s.txSent) h = some r
    rw [alookup_foldl_aerase, if_neg hh]
    exact hrec

/-- C8 witness: the lifecycle statement evaluated on a state holding hash 1. -/
theorem C8_witness :
    alookup sB.txSent 1 = some [⟨tx1, []⟩] ∧
    ((∀ txs, alookup (Send psB sB txs).1.txSent 1 = some [⟨tx1, []⟩]) ∧
      (∀ head mined rollback,
        alookup (NewHead psB sB head mined rollback).1.txSent 1 = some [⟨tx1, []⟩]) ∧
      (∀ p, (registerPeer psB sB p).txSent = sB.txSent ∧
        (unregisterPeer psB sB p).txSent = sB.txSent) ∧
      (∀ hashes, 1 ∈ hashes →
        alookup (Discard sB hashes).txSent 1 = none ∧
          1 ∉ (Discard sB hashes).txPending) ∧
      (∀ hashes, 1 ∉ hashes → alookup (Discard sB hashes).txSent 1 = some [⟨tx1, []⟩])) :=
  ⟨by decide, C8_record_lifecycle psB sB 1 [⟨tx1, []⟩] (by decide)⟩

/-- C9: in every reachable state, every entry of every relay record still has
an empty delivered-to set: no operation ever adds a peer to sentTo. -/
theorem C9_sentTo_always_empty (ps : PeerSet) (s : LesTxRelay)
    (hreach : Reachable ps s) : allSentToEmpty s.txSent :=
  (reachable_tablesOk hreach).2

/-- C9 witness: the invariant evaluated at the reachable state sB. -/
theorem C9_witness : Reachable psB sB ∧ allSentToEmpty sB.txSent :=
  ⟨⟨opsB, by decide⟩, C9_sentTo_always_empty psB sB ⟨opsB, by decide⟩⟩

/-- C10: a hash listed both as mined and as rolled back in one NewHead call is
pending afterwards: the rollback insertions run after the mined deletions, and
the trailing send pass never removes pending hashes. -/
theorem C10_rollback_wins (ps : PeerSet) (s : LesTxRelay) (head : Hash)
    (mined rollback : List Hash) (h : Hash)
    (h1 : h ∈ mined) (h2 : h ∈ rollback) :
    h ∈ (NewHead ps s head mined rollback).1.txPending := by
  have hp2 : h ∈ rollback.foldl pinsert (mined.foldl perase s.txPending) :=
    (mem_foldl_pinsert _ _).mpr (Or.inr h2)
  simp only [NewHead]
  rw [if_pos (List.length_pos.mpr (List.ne_nil_of_mem hp2))]
  exact sendFold_pending_mono ps _ _ _ h hp2

/-- C10 witness: hash 3 both mined and rolled back in one call. -/
theorem C10_witness :
    (3 : Hash) ∈ [(3 : Hash)] ∧
    3 ∈ (NewHead psB initRelay 0 [3] [3]).1.txPending :=
  ⟨by decide, C10_rollback_wins psB initRelay 0 [3] [3] 3 (by decide) (by decide)⟩

end TxRelay
